import Mathlib

/-!
# Verification of the qimba core against its specification

Shallow embedding of the core of the `qimba` repository:

* `Job` and `Job.run` from `src/qimba/core.py` — an external-process
  invocation with input/output existence checks and append-only logging.
  The filesystem is modelled as the list of paths that exist; the side
  effects of `run` (log-header writes, the process spawn) are recorded in
  an event trace, and the outcome is an `Except` value mirroring the
  Python exceptions (`FileNotFoundError` for a missing input,
  `subprocess.CalledProcessError` for a non-zero exit with `check=True`,
  `RuntimeError` for a missing output).
* `SampleSheet` from `src/qimba/formats.py` — samples keyed by id with
  forward/reverse read paths and extra attributes, with tab-separated
  load/save, lookups and sorting.  Files are modelled at the row level
  (`List (List String)`): the Python `csv` reader/writer pair is a
  faithful fields-to-text codec, so the row list is exactly what the
  parsing code consumes and what the writing code produces.  `Path`
  values are modelled by their string representation (for a stored
  `Path` object, `Path(str(p)) == p`, so conversion is the identity).
* `process_filename` and `rename_sample_id` from
  `src/qimba/commands/make_mapping.py` — filename classification for
  directory pairing and duplicate-safe identifier sanitization.
-/

/-! ## Association-list helpers

Python `dict`s are insertion-ordered maps.  They are embedded as
association lists: `aget` is `dict.get`, `dictInsert` is `d[k] = v`
(overwrite in place when the key is present, append otherwise). -/

def aget {α : Type} : List (String × α) → String → Option α
  | [], _ => none
  | (k, v) :: rest, key => if k = key then some v else aget rest key

def dictInsert {α : Type} (m : List (String × α)) (k : String) (v : α) :
    List (String × α) :=
  if m.any (fun p => p.1 = k) then
    m.map (fun p => if p.1 = k then (k, v) else p)
  else
    m ++ [(k, v)]

theorem aget_append_left {α : Type} {m : List (String × α)} {k : String}
    {v : α} (m' : List (String × α)) (h : aget m k = some v) :
    aget (m ++ m') k = some v := by
  induction m with
  | nil => simp [aget] at h
  | cons p rest ih =>
    simp only [aget, List.cons_append] at h ⊢
    by_cases hk : p.1 = k
    · simpa [hk] using h
    · simp [hk] at h ⊢
      exact ih h

theorem aget_append_none {α : Type} {m : List (String × α)} {k : String}
    (m' : List (String × α)) (h : aget m k = none) :
    aget (m ++ m') k = aget m' k := by
  induction m with
  | nil => simp
  | cons p rest ih =>
    simp only [aget, List.cons_append] at h ⊢
    by_cases hk : p.1 = k
    · simp [hk] at h
    · simp [hk] at h ⊢
      exact ih h

/-! ## Job (`src/qimba/core.py`) -/

/-- Observable side effects of `Job.run`, in the order they happen. -/
inductive Event where
  | writeHeader (logPath : String)
  | spawn (command : List String)
  deriving DecidableEq, Repr

/-- Failure outcomes of `Job.run`.  `inputMissing` is the
`FileNotFoundError` raised by `_validate_inputs`, `processFailed` the
`subprocess.CalledProcessError` raised on a non-zero exit when
`check=True`, and `outputMissing` the `RuntimeError` raised by
`_validate_outputs`. -/
inductive JobError where
  | inputMissing (path : String)
  | processFailed (exitCode : Nat)
  | outputMissing (path : String)
  deriving DecidableEq, Repr

/-- A `Job`: argument vector, required inputs/outputs, optional log
paths (`__init__` in `core.py`; the string command form is pre-split by
`shlex.split`, so only the list form is modelled). -/
structure Job where
  command : List String
  required_input : List String
  required_output : List String
  log_stderr : Option String
  log_stdout : Option String
  deriving DecidableEq, Repr

/-- The log files configured on a job, in the order
`_write_command_to_logs` visits them (`stderr` first, then `stdout`). -/
def Job.configuredLogs (j : Job) : List String :=
  [j.log_stderr, j.log_stdout].filterMap id

/-- First path of `paths` that does not exist in filesystem `fs`
(the loop bodies of `_validate_inputs` / `_validate_outputs`). -/
def firstMissing (fs : List String) (paths : List String) : Option String :=
  paths.find? (fun p => !(fs.contains p))

/-- `Job.run` from `core.py`.  `fsBefore` is the set of paths existing
when `run` is called, `exitCode` the exit status of the external
process, `fsAfter` the set of paths existing after the process exits,
and `chk` the `check` keyword (default `True` in the source).  Returns
the outcome together with the trace of observable events:
1. `_validate_inputs` — first missing required input raises
   `FileNotFoundError`, nothing else happens;
2. `_ensure_log_dirs` and opening the log handles (no observable event);
3. `_write_command_to_logs` — one header append per configured log,
   stderr log first;
4. `subprocess.run` — the spawn; raises on non-zero exit iff `chk`;
5. `_validate_outputs` — first missing required output raises
   `RuntimeError`. -/
def Job.run (j : Job) (fsBefore : List String) (exitCode : Nat)
    (fsAfter : List String) (chk : Bool) : Except JobError Nat × List Event :=
  match firstMissing fsBefore j.required_input with
  | some p => (.error (.inputMissing p), [])
  | none =>
    let evs := (j.configuredLogs).map Event.writeHeader ++ [Event.spawn j.command]
    if exitCode ≠ 0 ∧ chk then
      (.error (.processFailed exitCode), evs)
    else
      match firstMissing fsAfter j.required_output with
      | some p => (.error (.outputMissing p), evs)
      | none => (.ok exitCode, evs)

theorem firstMissing_of_split {fs pre rest : List String} {p : String}
    (hpre : ∀ q ∈ pre, q ∈ fs) (hp : p ∉ fs) :
    firstMissing fs (pre ++ p :: rest) = some p := by
  induction pre with
  | nil =>
    have hpc : (!fs.contains p) = true := by simp [hp]
    simp only [firstMissing, List.nil_append, List.find?_cons, hpc]
  | cons q qs ih =>
    have hq : q ∈ fs := hpre q (by simp)
    have hqc : (!fs.contains q) = false := by simp [hq]
    have ih' := ih (fun x hx => hpre x (by simp [hx]))
    simp only [firstMissing, List.cons_append, List.find?_cons, hqc]
    simpa only [firstMissing] using ih'

theorem firstMissing_of_all {fs paths : List String}
    (h : ∀ q ∈ paths, q ∈ fs) :
    firstMissing fs paths = none := by
  induction paths with
  | nil => rfl
  | cons q qs ih =>
    have hq : q ∈ fs := h q (by simp)
    have hqc : (!fs.contains q) = false := by simp [hq]
    have ih' := ih (fun x hx => h x (by simp [hx]))
    simp only [firstMissing, List.find?_cons, hqc]
    simpa only [firstMissing] using ih'

/-- C1: if a job's required-input list contains a missing path, `run`
fails with the input-missing error (`FileNotFoundError`) naming the
first missing path, and the event trace contains no process spawn. -/
theorem claim_C1 (j : Job) (fsB fsA : List String) (ec : Nat) (chk : Bool)
    (pre : List String) (p : String) (rest : List String)
    (hsplit : j.required_input = pre ++ p :: rest)
    (hpre : ∀ q ∈ pre, q ∈ fsB) (hp : p ∉ fsB) :
    (j.run fsB ec fsA chk).1 = .error (.inputMissing p) ∧
      ∀ c, Event.spawn c ∉ (j.run fsB ec fsA chk).2 := by
  have hfm : firstMissing fsB j.required_input = some p := by
    rw [hsplit]; exact firstMissing_of_split hpre hp
  simp [Job.run, hfm]

/-- Closed witness for C1. -/
theorem claim_C1_witness :
    let j : Job := ⟨["tool", "-x"], ["in1.fq", "in2.fq"], ["out.fq"],
      some "err.log", some "out.log"⟩
    (j.run ["in1.fq"] 0 ["out.fq"] true).1
        = .error (.inputMissing "in2.fq") ∧
      ∀ c, Event.spawn c ∉ (j.run ["in1.fq"] 0 ["out.fq"] true).2 :=
  claim_C1 _ _ _ _ _ ["in1.fq"] "in2.fq" [] rfl (by decide) (by decide)

/-- C2: if every required input exists and the process exits with status
zero but some declared required output does not exist afterwards, `run`
fails with the output-missing error (`RuntimeError`) naming the first
missing output path (for either value of `check`): a zero exit alone
never yields success. -/
theorem claim_C2 (j : Job) (fsB fsA : List String) (chk : Bool)
    (pre : List String) (p : String) (rest : List String)
    (hin : ∀ q ∈ j.required_input, q ∈ fsB)
    (hsplit : j.required_output = pre ++ p :: rest)
    (hpre : ∀ q ∈ pre, q ∈ fsA) (hp : p ∉ fsA) :
    (j.run fsB 0 fsA chk).1 = .error (.outputMissing p) := by
  have hfmIn : firstMissing fsB j.required_input = none :=
    firstMissing_of_all hin
  have hfmOut : firstMissing fsA j.required_output = some p := by
    rw [hsplit]; exact firstMissing_of_split hpre hp
  simp [Job.run, hfmIn, hfmOut]

/-- Closed witness for C2. -/
theorem claim_C2_witness :
    let j : Job := ⟨["tool"], ["in.fq"], ["a.out", "b.out"],
      none, some "out.log"⟩
    (j.run ["in.fq"] 0 ["a.out"] true).1 = .error (.outputMissing "b.out") :=
  claim_C2 _ _ _ _ ["a.out"] "b.out" [] (by decide) rfl (by decide) (by decide)

/-- C9: in every execution of `run` whose trace reaches the spawn step,
each configured log file receives its header block strictly before the
process spawn appears in the trace. -/
theorem claim_C9 (j : Job) (fsB fsA : List String) (ec : Nat) (chk : Bool)
    (hspawn : Event.spawn j.command ∈ (j.run fsB ec fsA chk).2) :
    ∀ l ∈ j.configuredLogs, ∃ i k, i < k ∧
      (j.run fsB ec fsA chk).2.get? i = some (Event.writeHeader l) ∧
      (j.run fsB ec fsA chk).2.get? k = some (Event.spawn j.command) := by
  intro l hl
  obtain ⟨i, hi, hget⟩ := List.mem_iff_getElem.mp hl
  have hEvs : ∀ evs : List Event,
      evs = (j.configuredLogs).map Event.writeHeader
        ++ [Event.spawn j.command] →
      ∃ i' k, i' < k ∧ evs.get? i' = some (Event.writeHeader l) ∧
        evs.get? k = some (Event.spawn j.command) := by
    intro evs hevs
    refine ⟨i, j.configuredLogs.length, hi, ?_, ?_⟩
    · rw [hevs, List.get?_eq_getElem?,
        List.getElem?_append_left (by simpa using hi), List.getElem?_map]
      simp [List.getElem?_eq_getElem hi, hget]
    · rw [hevs, List.get?_eq_getElem?,
        List.getElem?_append_right (by simp)]
      simp
  unfold Job.run at hspawn ⊢
  cases hfm : firstMissing fsB j.required_input with
  | some p => simp [hfm] at hspawn
  | none =>
    simp only [hfm]
    by_cases hc : ec ≠ 0 ∧ chk
    · simp only [if_pos hc]
      exact hEvs _ rfl
    · simp only [if_neg hc]
      cases hout : firstMissing fsA j.required_output with
      | some p => exact hEvs _ rfl
      | none => exact hEvs _ rfl

/-- Closed witness for C9. -/
theorem claim_C9_witness :
    let j : Job := ⟨["tool"], [], [], some "err.log", some "out.log"⟩
    ∀ l ∈ j.configuredLogs, ∃ i k, i < k ∧
      (j.run [] 0 [] true).2.get? i = some (Event.writeHeader l) ∧
      (j.run [] 0 [] true).2.get? k = some (Event.spawn ["tool"]) :=
  claim_C9 _ [] [] 0 true (by decide)

/-! ## SampleSheet (`src/qimba/formats.py`)

`Path` objects are represented by their string form; for a stored
`Path` object `p`, `Path(str(p)) == p`, so the `Path` constructor in
`add_sample` and `load_from_file` is the identity on this
representation.  Files are represented at the row level
(`List (List String)`): the `csv` reader/writer pair used by the source
is a faithful fields-to-text codec for tab-separated values. -/

/-- `Sample` dataclass: id, forward read path, optional reverse read
path, attribute mapping (insertion-ordered, as a Python dict). -/
structure Sample where
  id : String
  forward : String
  reverse : Option String
  attributes : List (String × String)
  deriving DecidableEq, Repr

/-- `Sample.get_attr`: `self.attributes.get(attr)`. -/
def Sample.get_attr (smp : Sample) (attr : String) : Option String :=
  aget smp.attributes attr

/-- Errors raised by `SampleSheet` loading, mirroring the `ValueError`s
of the source.  `emptyHeaderRow` models the uncaught `IndexError` of
`headers[0]` when the first line parses to zero fields. -/
inductive LoadError where
  | emptyFile
  | emptyHeaderRow
  | firstColBlank
  | missingColumns
  | rowShape (lineNo : Nat)
  | duplicateKey (id : String)
  deriving DecidableEq, Repr

/-- `SampleSheet`: ordered column list plus the `_samples` dict, whose
keys are exactly the `id` fields of the stored samples, in insertion
order. -/
structure SampleSheet where
  columns : List String
  samples : List Sample
  deriving DecidableEq, Repr

/-- The ids present in the `_samples` dict. -/
def SampleSheet.ids (s : SampleSheet) : List String :=
  s.samples.map Sample.id

/-- `SampleSheet.add_sample`: raises `ValueError` (`duplicateKey`) when
the id is already present, else appends the new sample. -/
def SampleSheet.add_sample (s : SampleSheet) (sample_id forward : String)
    (reverse : Option String) (attributes : List (String × String)) :
    Except LoadError SampleSheet :=
  if s.ids.contains sample_id then .error (.duplicateKey sample_id)
  else .ok { s with samples := s.samples ++ [⟨sample_id, forward, reverse, attributes⟩] }

/-- Lookup error for `get_sample_attr` / `get_sample` /
`remove_sample`: the `KeyError` raised for an unknown sample id. -/
inductive LookupError where
  | notFound (id : String)
  deriving DecidableEq, Repr

/-- The `sample_id in self._samples` membership test and the dict read
`self._samples[sample_id]` combined. -/
def SampleSheet.find? (s : SampleSheet) (sample_id : String) : Option Sample :=
  s.samples.find? (fun smp => smp.id = sample_id)

/-- `SampleSheet.get_sample_attr`: `KeyError` for an unknown id,
otherwise `self._samples[sample_id].get_attr(attr)` (which yields
`None` for an unknown attribute, not an error). -/
def SampleSheet.get_sample_attr (s : SampleSheet) (sample_id attr : String) :
    Except LookupError (Option String) :=
  match s.find? sample_id with
  | none => .error (.notFound sample_id)
  | some smp => .ok (smp.get_attr attr)

/-- Python `str.strip()` with no argument: remove leading and trailing
whitespace.  Implemented on the character list so that it reduces in
the kernel (`String.trim` does not); agrees with the source's use on
the ASCII whitespace of sample sheets. -/
def pyStrip (s : String) : String :=
  ⟨(((s.data.dropWhile Char.isWhitespace).reverse).dropWhile
      Char.isWhitespace).reverse⟩

/-- The `col_idx` dict of `load_from_file`:
`{col.strip(): idx for idx, col in enumerate(headers)}`. -/
def colIdx (headers : List String) : List (String × Nat) :=
  headers.enum.foldl (fun m p => dictInsert m (pyStrip p.2) p.1) []

/-- One data row of `load_from_file` (the loop body): field-count
check, id strip and blank-skip, Forward/Reverse extraction with the
blank-Reverse rule, attribute collection, then `add_sample`. -/
def loadRow (headers : List String) (h0 : String) (cidx : List (String × Nat))
    (jF jR : Nat) (lineNo : Nat) (acc : SampleSheet) (row : List String) :
    Except LoadError SampleSheet :=
  if row.length ≠ headers.length then .error (.rowShape lineNo)
  else
    let sid := pyStrip (row.headD "")
    if sid = "" then .ok acc
    else
      let forward := row.getD jF ""
      let reverseCell := row.getD jR ""
      let reverse := if pyStrip reverseCell = "" then none else some reverseCell
      let attrs := (cidx.filter
          (fun p => !(p.1 = "Forward" ∨ p.1 = "Reverse" : Bool) && p.1 ≠ h0)).map
        (fun p => (p.1, row.getD p.2 ""))
      acc.add_sample sid forward reverse attrs

/-- The data-row loop of `load_from_file`, threading the 1-based line
number (`enumerate(reader, 2)`). -/
def loadFold (headers : List String) (h0 : String) (cidx : List (String × Nat))
    (jF jR : Nat) (rows : List (List String)) (lineNo : Nat)
    (acc : SampleSheet) : Except LoadError SampleSheet :=
  match rows with
  | [] => .ok acc
  | row :: rest =>
    match loadRow headers h0 cidx jF jR lineNo acc row with
    | .error e => .error e
    | .ok acc' => loadFold headers h0 cidx jF jR rest (lineNo + 1) acc'

/-- `SampleSheet.load_from_file`, on the decoded rows of the file:
empty-file check, header storage, blank-first-header check, required
`Forward`/`Reverse` columns check, then the data-row loop. -/
def SampleSheet.load_from_file (rows : List (List String)) :
    Except LoadError SampleSheet :=
  match rows with
  | [] => .error .emptyFile
  | headers :: dataRows =>
    match headers with
    | [] => .error .emptyHeaderRow
    | h0 :: _ =>
      if pyStrip h0 = "" then .error .firstColBlank
      else
        let cidx := colIdx headers
        match aget cidx "Forward", aget cidx "Reverse" with
        | some jF, some jR =>
          loadFold headers h0 cidx jF jR dataRows 2 ⟨headers, []⟩
        | some _, none => .error .missingColumns
        | none, _ => .error .missingColumns

/-- One output cell of `save_to_file` (with `absolute_paths=False`) for
a non-id column. -/
def renderCell (smp : Sample) (col : String) : String :=
  if col = "Forward" then smp.forward
  else if col = "Reverse" then smp.reverse.getD ""
  else (smp.get_attr col).getD ""

/-- `SampleSheet.save_to_file` (with `absolute_paths=False`), producing
the written rows: the stored column list as header, then one row per
sample in iteration order (`[sample.id] ++ cells for columns[1:]`). -/
def SampleSheet.save_to_file (s : SampleSheet) : List (List String) :=
  s.columns :: s.samples.map (fun smp => smp.id :: (s.columns.drop 1).map (renderCell smp))

/-- The key of Python's `sorted(self._samples.values(), key=lambda x: x.id)`:
stable sort by lexicographic comparison of the id strings. -/
def sampleLe (a b : Sample) : Prop := a.id ≤ b.id

instance : DecidableRel sampleLe := fun a b => by
  unfold sampleLe; infer_instance

/-- `SampleSheet.sort` with the default `SortBy.SAMPLE_ID` criterion:
stable-sort the samples by id (Python's `sorted` is stable, as is
insertion sort), then rebuild a new sheet with the same column list by
`add_sample` calls, which can only fail on a duplicate id. -/
def SampleSheet.sort (s : SampleSheet) : Except LoadError SampleSheet :=
  (s.samples.insertionSort sampleLe).foldlM
    (fun t smp => t.add_sample smp.id smp.forward smp.reverse smp.attributes)
    ⟨s.columns, []⟩

theorem aget_eq_none_of_not_mem {α : Type} {m : List (String × α)} {k : String}
    (h : k ∉ m.map Prod.fst) : aget m k = none := by
  induction m with
  | nil => rfl
  | cons p rest ih =>
    simp only [List.map_cons, List.mem_cons] at h
    push_neg at h
    simp only [aget]
    rw [if_neg (fun hk => h.1 hk.symm)]
    exact ih h.2

theorem find?_eq_none_of_not_mem_ids {s : SampleSheet} {sample_id : String}
    (h : sample_id ∉ s.ids) : s.find? sample_id = none := by
  unfold SampleSheet.find?
  rw [List.find?_eq_none]
  intro smp hsmp
  simp only [SampleSheet.ids, List.mem_map] at h
  push_neg at h
  simpa using h smp hsmp

/-- C7: `get_sample_attr(id, attr)` fails with the not-found error
(`KeyError`) when `id` is not a registered sample; when `id` is
registered (the `_samples` lookup yields a sample) and `attr` is not an
attribute of that sample, it returns the explicit absent value
`none` rather than an error. -/
theorem claim_C7 (s : SampleSheet) (sample_id attr : String) :
    (sample_id ∉ s.ids →
      s.get_sample_attr sample_id attr = .error (.notFound sample_id)) ∧
    (∀ smp, s.find? sample_id = some smp →
      attr ∉ smp.attributes.map Prod.fst →
      s.get_sample_attr sample_id attr = .ok none) := by
  constructor
  · intro h
    unfold SampleSheet.get_sample_attr
    rw [find?_eq_none_of_not_mem_ids h]
  · intro smp hfind hattr
    unfold SampleSheet.get_sample_attr
    rw [hfind]
    simp [Sample.get_attr, aget_eq_none_of_not_mem hattr]

/-- Closed witness for C7. -/
theorem claim_C7_witness :
    let s : SampleSheet := ⟨["ID", "Forward", "Reverse", "Treatment"],
      [⟨"A", "a_R1.fq", none, [("Treatment", "x")]⟩]⟩
    s.get_sample_attr "B" "Treatment" = .error (.notFound "B") ∧
      s.get_sample_attr "A" "Dose" = .ok none := by
  refine ⟨(claim_C7 _ "B" "Treatment").1 (by decide), ?_⟩
  exact (claim_C7 _ "A" "Dose").2 ⟨"A", "a_R1.fq", none, [("Treatment", "x")]⟩
    rfl (by decide)

instance : IsTotal Sample sampleLe := ⟨fun a b => le_total a.id b.id⟩

instance : IsTrans Sample sampleLe := ⟨fun _ _ _ h1 h2 => le_trans h1 h2⟩

/-- Rebuilding a sheet by `add_sample` over a list with distinct ids
succeeds and appends exactly that list. -/
theorem foldAdd_ok (L : List Sample) :
    ∀ acc : SampleSheet, (acc.ids ++ L.map Sample.id).Nodup →
    L.foldlM
        (fun t smp => t.add_sample smp.id smp.forward smp.reverse smp.attributes)
        acc
      = .ok ⟨acc.columns, acc.samples ++ L⟩ := by
  induction L with
  | nil =>
    intro acc _
    show pure acc = _
    rw [List.append_nil]
    rfl
  | cons smp rest ih =>
    intro acc hnd
    have hmem : smp.id ∉ acc.ids := by
      intro hin
      have := (List.nodup_append.mp hnd).2.2
      exact this hin (by simp)
    have hstep : acc.add_sample smp.id smp.forward smp.reverse smp.attributes
        = .ok ⟨acc.columns, acc.samples ++ [smp]⟩ := by
      unfold SampleSheet.add_sample
      rw [if_neg (by simpa using hmem)]
    rw [List.foldlM_cons, hstep]
    show rest.foldlM _ (⟨acc.columns, acc.samples ++ [smp]⟩ : SampleSheet) = _
    have hnd' : ((⟨acc.columns, acc.samples ++ [smp]⟩ : SampleSheet).ids
        ++ rest.map Sample.id).Nodup := by
      simp only [SampleSheet.ids, List.map_append, List.map_cons,
        List.map_nil] at hnd ⊢
      simpa [List.append_assoc] using hnd
    rw [ih _ hnd']
    simp

/-- C8: sorting by sample id is idempotent — `sort` on a sheet with
distinct sample ids succeeds, and applying `sort` to the result yields
the very same sheet (same iteration order, same columns). -/
theorem claim_C8 (s : SampleSheet) (h : s.ids.Nodup) :
    ∃ t, s.sort = .ok t ∧ t.sort = .ok t := by
  have hperm : List.Perm ((s.samples.insertionSort sampleLe).map Sample.id) s.ids :=
    (List.perm_insertionSort sampleLe s.samples).map Sample.id
  have hnd : ((s.samples.insertionSort sampleLe).map Sample.id).Nodup :=
    hperm.nodup_iff.mpr h
  refine ⟨⟨s.columns, s.samples.insertionSort sampleLe⟩, ?_, ?_⟩
  · unfold SampleSheet.sort
    have := foldAdd_ok (s.samples.insertionSort sampleLe)
      ⟨s.columns, []⟩ (by simpa [SampleSheet.ids] using hnd)
    simpa using this
  · unfold SampleSheet.sort
    have hsorted : List.Sorted sampleLe (s.samples.insertionSort sampleLe) :=
      List.sorted_insertionSort sampleLe s.samples
    have heq : (s.samples.insertionSort sampleLe).insertionSort sampleLe
        = s.samples.insertionSort sampleLe := hsorted.insertionSort_eq
    rw [show ((⟨s.columns, s.samples.insertionSort sampleLe⟩ :
        SampleSheet).samples) = s.samples.insertionSort sampleLe from rfl]
    rw [heq]
    have := foldAdd_ok (s.samples.insertionSort sampleLe)
      ⟨s.columns, []⟩ (by simpa [SampleSheet.ids] using hnd)
    simpa using this

/-- Closed witness for C8. -/
theorem claim_C8_witness :
    let s : SampleSheet := ⟨["ID", "Forward", "Reverse"],
      [⟨"B", "b.fq", none, []⟩, ⟨"A", "a.fq", some "a2.fq", []⟩]⟩
    ∃ t, s.sort = .ok t ∧ t.sort = .ok t :=
  claim_C8 _ (by decide)


/-- The sample ids contributed by a list of data rows: the stripped ID
cells of the rows whose ID cell is not blank after stripping. -/
def nonblankIds (rows : List (List String)) : List String :=
  rows.filterMap (fun r =>
    if pyStrip (r.headD "") = "" then none else some (pyStrip (r.headD "")))

theorem nonblankIds_nil : nonblankIds [] = [] := rfl

theorem nonblankIds_cons_blank {r : List String} {rows : List (List String)}
    (h : pyStrip (r.headD "") = "") :
    nonblankIds (r :: rows) = nonblankIds rows := by
  simp only [nonblankIds, List.filterMap_cons, if_pos h]

theorem nonblankIds_cons_nonblank {r : List String} {rows : List (List String)}
    (h : pyStrip (r.headD "") ≠ "") :
    nonblankIds (r :: rows) = pyStrip (r.headD "") :: nonblankIds rows := by
  simp only [nonblankIds, List.filterMap_cons, if_neg h]

theorem nonblankIds_append (a b : List (List String)) :
    nonblankIds (a ++ b) = nonblankIds a ++ nonblankIds b := by
  simp [nonblankIds]

/-- When every data row has the right field count, the only error the
data-row loop can produce is a duplicate-key error. -/
theorem loadFold_error_is_dup (headers : List String) (h0 : String)
    (cidx : List (String × Nat)) (jF jR : Nat) :
    ∀ (rows : List (List String)) (lineNo : Nat) (acc : SampleSheet) (e : LoadError),
    (∀ r ∈ rows, r.length = headers.length) →
    loadFold headers h0 cidx jF jR rows lineNo acc = .error e →
    ∃ id, e = .duplicateKey id := by
  intro rows
  induction rows with
  | nil => intro _ _ _ _ h; simp [loadFold] at h
  | cons row rest ih =>
    intro lineNo acc e hlen hrun
    have hrow : row.length = headers.length := hlen row (by simp)
    unfold loadFold at hrun
    unfold loadRow at hrun
    rw [if_neg (by simp [hrow])] at hrun
    by_cases hsid : pyStrip (row.headD "") = ""
    · rw [if_pos hsid] at hrun
      exact ih _ _ _ (fun r hr => hlen r (by simp [hr])) hrun
    · rw [if_neg hsid] at hrun
      unfold SampleSheet.add_sample at hrun
      by_cases hdup : acc.ids.contains (pyStrip (row.headD ""))
      · rw [if_pos hdup] at hrun
        simp at hrun
        exact ⟨_, hrun.symm⟩
      · rw [if_neg hdup] at hrun
        exact ih _ _ _ (fun r hr => hlen r (by simp [hr])) hrun

/-- If the data-row loop succeeds, the non-blank ids contributed by the
rows are pairwise distinct, and none of them was already present in the
accumulator sheet. -/
theorem loadFold_ok_nodup (headers : List String) (h0 : String)
    (cidx : List (String × Nat)) (jF jR : Nat) :
    ∀ (rows : List (List String)) (lineNo : Nat) (acc t : SampleSheet),
    loadFold headers h0 cidx jF jR rows lineNo acc = .ok t →
    (nonblankIds rows).Nodup ∧ ∀ id ∈ nonblankIds rows, id ∉ acc.ids := by
  intro rows
  induction rows with
  | nil => intro _ _ _ _; simp [nonblankIds]
  | cons row rest ih =>
    intro lineNo acc t hrun
    unfold loadFold at hrun
    unfold loadRow at hrun
    by_cases hlen : row.length ≠ headers.length
    · rw [if_pos hlen] at hrun; simp at hrun
    · rw [if_neg hlen] at hrun
      by_cases hsid : pyStrip (row.headD "") = ""
      · rw [if_pos hsid] at hrun
        obtain ⟨hnd, hfresh⟩ := ih _ _ _ hrun
        rw [nonblankIds_cons_blank hsid]
        exact ⟨hnd, hfresh⟩
      · rw [if_neg hsid] at hrun
        unfold SampleSheet.add_sample at hrun
        by_cases hdup : acc.ids.contains (pyStrip (row.headD ""))
        · rw [if_pos hdup] at hrun; simp at hrun
        · rw [if_neg hdup] at hrun
          obtain ⟨hnd, hfresh⟩ := ih _ _ _ hrun
          have hnotmem : pyStrip (row.headD "") ∉ acc.ids := by
            intro hin
            exact hdup (by simpa using hin)
          have haccids : ∀ id (smps : List Sample) (cols : List String),
              id ∈ (SampleSheet.mk cols smps).ids ↔
                id ∈ smps.map Sample.id := by
            intro id smps cols; simp [SampleSheet.ids]
          rw [nonblankIds_cons_nonblank hsid]
          constructor
          · refine List.Nodup.cons ?_ hnd
            intro hmem
            have := hfresh _ hmem
            rw [haccids] at this
            simp at this
          · intro id hid
            rcases List.mem_cons.mp hid with heq | hmem
            · subst heq; exact hnotmem
            · intro hin
              have := hfresh _ hmem
              rw [haccids] at this
              simp only [List.map_append, List.map_cons, List.map_nil,
                List.mem_append] at this
              push_neg at this
              exact this.1 (by simpa [SampleSheet.ids] using hin)

/-- C10: loading a sample-sheet whose data rows contain two non-blank
ID cells that strip to the same sample id fails with a duplicate-key
error (the `ValueError` of `add_sample`); since loading is
all-or-nothing, no partial registry is returned. -/
theorem claim_C10 (h0 : String) (hrest : List String)
    (l1 l2 l3 : List (List String)) (r1 r2 : List String) (jF jR : Nat)
    (hh0 : pyStrip h0 ≠ "")
    (hF : aget (colIdx (h0 :: hrest)) "Forward" = some jF)
    (hR : aget (colIdx (h0 :: hrest)) "Reverse" = some jR)
    (hlen : ∀ r ∈ l1 ++ (r1 :: (l2 ++ (r2 :: l3))),
      r.length = (h0 :: hrest).length)
    (hid1 : pyStrip (r1.headD "") = pyStrip (r2.headD ""))
    (hid2 : pyStrip (r1.headD "") ≠ "") :
    ∃ id, SampleSheet.load_from_file
        ((h0 :: hrest) :: (l1 ++ (r1 :: (l2 ++ (r2 :: l3)))))
      = .error (.duplicateKey id) := by
  have hnotnodup : ¬ (nonblankIds (l1 ++ (r1 :: (l2 ++ (r2 :: l3))))).Nodup := by
    intro hnd
    rw [nonblankIds_append, nonblankIds_cons_nonblank hid2,
      nonblankIds_append, nonblankIds_cons_nonblank (hid1 ▸ hid2)] at hnd
    have hnd2 := hnd.of_append_right
    have := hnd2.not_mem
    apply this
    rw [hid1]
    simp
  simp only [SampleSheet.load_from_file]
  rw [if_neg (by simpa using hh0)]
  simp only [hF, hR]
  cases hrun : loadFold (h0 :: hrest) h0 (colIdx (h0 :: hrest)) jF jR
      (l1 ++ (r1 :: (l2 ++ (r2 :: l3)))) 2 ⟨h0 :: hrest, []⟩ with
  | ok t =>
    exact absurd (loadFold_ok_nodup _ _ _ _ _ _ _ _ _ hrun).1 hnotnodup
  | error e =>
    obtain ⟨id, hide⟩ := loadFold_error_is_dup _ _ _ _ _ _ _ _ _ hlen hrun
    exact ⟨id, by rw [hide]⟩

/-- Closed witness for C10. -/
theorem claim_C10_witness :
    ∃ id, SampleSheet.load_from_file
        [["ID", "Forward", "Reverse"], ["A", "f1.fq", ""], ["A", "f2.fq", ""]]
      = .error (.duplicateKey id) :=
  claim_C10 "ID" ["Forward", "Reverse"] [] [] []
    ["A", "f1.fq", ""] ["A", "f2.fq", ""] 1 2
    (by decide) (by decide) (by decide) (by decide) (by decide) (by decide)

/-! ## Directory pairing and sanitization (`src/qimba/commands/make_mapping.py`) -/

/-- Fuel-indexed core of Python `str.replace(old, '')` for a non-empty
`old`: scan left to right, removing each leftmost non-overlapping
occurrence of `pat`.  Structured with fuel (an upper bound on the
remaining length) so that it reduces in the kernel; `replaceAllL`
instantiates the fuel with the list length, which always suffices. -/
def replaceAllAux (pat : List Char) : Nat → List Char → List Char
  | _, [] => []
  | 0, s => s
  | fuel + 1, c :: cs =>
    if pat ≠ [] ∧ pat.isPrefixOf (c :: cs) then
      replaceAllAux pat fuel ((c :: cs).drop pat.length)
    else
      c :: replaceAllAux pat fuel cs

/-- Python `name.replace(pat, '')` (for `pat ≠ []`; the source only
calls it under `if strip_str:`). -/
def replaceAllL (pat s : List Char) : List Char :=
  replaceAllAux pat s.length s

/-- The text of `s` before the first occurrence of `tag`, or `none`
when `tag` does not occur: `s.split(tag)[0]` guarded by `tag in s`
(the source never calls this with an empty tag, for which Python
`split` would raise). -/
def splitFirst (tag : List Char) : List Char → Option (List Char)
  | [] => if tag.isPrefixOf ([] : List Char) then some [] else none
  | c :: cs =>
    if tag.isPrefixOf (c :: cs) then some []
    else (splitFirst tag cs).map (fun pre => c :: pre)

/-- Removal of only the first occurrence of `pat`, written from the
specification's words ("remove the first occurrence of the strip
substring"), for comparison with the source behavior. -/
def removeFirstL (pat : List Char) : List Char → List Char
  | [] => []
  | c :: cs =>
    if pat ≠ [] ∧ pat.isPrefixOf (c :: cs) then (c :: cs).drop pat.length
    else c :: removeFirstL pat cs

/-- The forward/reverse tag search of `process_filename`: forward tag
first, then reverse tag, else no match. -/
def classifyName (name1 tag_for tag_rev : List Char) : Option String × Bool :=
  match splitFirst tag_for name1 with
  | some pre => (some ⟨pre⟩, true)
  | none =>
    match splitFirst tag_rev name1 with
    | some pre => (some ⟨pre⟩, false)
    | none => (none, false)

/-- `process_filename` from `make_mapping.py`, for a bare file name
(no directory part, for which the extension test on the full path and
the stem extraction on `filename.name` coincide):
1. reject names not ending with `extension`;
2. drop the extension (`name[:-len(extension)]`, which is the whole
   name minus the suffix — and the empty string when `extension` is
   empty, per Python slicing);
3. if `strip_str` is non-empty, delete every occurrence of it
   (`str.replace` removes all leftmost non-overlapping occurrences);
4. classify by forward tag, then reverse tag. -/
def process_filename (filename ext strip_str tag_for tag_rev : String) :
    Option String × Bool :=
  if ¬ (ext.data.isSuffixOf filename.data) then (none, false)
  else
    let name0 := if ext.data.length = 0 then []
      else filename.data.take (filename.data.length - ext.data.length)
    let name1 := if strip_str.data.isEmpty then name0
      else replaceAllL strip_str.data name0
    classifyName name1 tag_for.data tag_rev.data

/-- The claim's reading of `process_filename`: identical, except that
only the FIRST occurrence of the strip substring is removed. -/
def process_filename_specFirstOnly (filename ext strip_str tag_for tag_rev : String) :
    Option String × Bool :=
  if ¬ (ext.data.isSuffixOf filename.data) then (none, false)
  else
    let name0 := if ext.data.length = 0 then []
      else filename.data.take (filename.data.length - ext.data.length)
    let name1 := if strip_str.data.isEmpty then name0
      else removeFirstL strip_str.data name0
    classifyName name1 tag_for.data tag_rev.data

/-- C5 counterexample: on `AxxBxx_R1.fq` with strip substring `xx`,
the code removes BOTH occurrences (sample id `AB`), while the claim
("only the first occurrence is removed; later occurrences remain")
predicts sample id `ABxx`. -/
theorem claim_C5_counterexample :
    process_filename "AxxBxx_R1.fq" ".fq" "xx" "_R1" "_R2"
        = (some "AB", true) ∧
      process_filename_specFirstOnly "AxxBxx_R1.fq" ".fq" "xx" "_R1" "_R2"
        = (some "ABxx", true) ∧
      process_filename "AxxBxx_R1.fq" ".fq" "xx" "_R1" "_R2"
        ≠ process_filename_specFirstOnly "AxxBxx_R1.fq" ".fq" "xx" "_R1" "_R2" := by
  refine ⟨by decide, by decide, by decide⟩

theorem replaceAllAux_nilList (pat : List Char) (fuel : Nat) :
    replaceAllAux pat fuel [] = [] := by
  cases fuel <;> rfl

theorem replaceAllAux_fuel (pat : List Char) :
    ∀ (n : Nat) (s : List Char), s.length ≤ n →
    ∀ f1 f2 : Nat, s.length ≤ f1 → s.length ≤ f2 →
    replaceAllAux pat f1 s = replaceAllAux pat f2 s := by
  intro n
  induction n with
  | zero =>
    intro s hs f1 f2 _ _
    have : s = [] := List.eq_nil_of_length_eq_zero (Nat.le_zero.mp hs)
    subst this
    rw [replaceAllAux_nilList, replaceAllAux_nilList]
  | succ n ih =>
    intro s hs f1 f2 h1 h2
    cases s with
    | nil => rw [replaceAllAux_nilList, replaceAllAux_nilList]
    | cons c cs =>
      cases f1 with
      | zero => simp at h1
      | succ g1 =>
        cases f2 with
        | zero => simp at h2
        | succ g2 =>
          simp only [replaceAllAux]
          by_cases hcond : pat ≠ [] ∧ pat.isPrefixOf (c :: cs)
          · rw [if_pos hcond, if_pos hcond]
            have hp : 0 < pat.length := List.length_pos.mpr hcond.1
            have hd : ((c :: cs).drop pat.length).length ≤ n := by
              simp only [List.length_drop, List.length_cons]
              simp only [List.length_cons] at hs
              omega
            refine ih _ hd g1 g2 ?_ ?_
            · simp only [List.length_drop, List.length_cons]
              simp only [List.length_cons] at h1
              omega
            · simp only [List.length_drop, List.length_cons]
              simp only [List.length_cons] at h2
              omega
          · rw [if_neg hcond, if_neg hcond]
            have hcs : cs.length ≤ n := by
              simp only [List.length_cons] at hs
              omega
            refine congrArg (c :: ·) (ih cs hcs g1 g2 ?_ ?_)
            · simp only [List.length_cons] at h1; omega
            · simp only [List.length_cons] at h2; omega

theorem replaceAllL_cons_pos {pat : List Char} {c : Char} {cs : List Char}
    (h : pat ≠ [] ∧ pat.isPrefixOf (c :: cs)) :
    replaceAllL pat (c :: cs) = replaceAllL pat ((c :: cs).drop pat.length) := by
  have hp : 0 < pat.length := List.length_pos.mpr h.1
  show replaceAllAux pat (cs.length + 1) (c :: cs) = _
  simp only [replaceAllAux, if_pos h]
  refine replaceAllAux_fuel pat ((c :: cs).drop pat.length).length _ le_rfl
    cs.length ((c :: cs).drop pat.length).length ?_ le_rfl
  simp only [List.length_drop, List.length_cons]
  omega

theorem replaceAllL_cons_neg {pat : List Char} {c : Char} {cs : List Char}
    (h : ¬ (pat ≠ [] ∧ pat.isPrefixOf (c :: cs))) :
    replaceAllL pat (c :: cs) = c :: replaceAllL pat cs := by
  show replaceAllAux pat (cs.length + 1) (c :: cs) = _
  simp only [replaceAllAux, if_neg h]
  rfl

theorem not_isPrefixOf_nil {pat : List Char} (h : pat ≠ []) :
    ¬ pat.isPrefixOf ([] : List Char) := by
  cases pat with
  | nil => exact absurd rfl h
  | cons c cs => simp [List.isPrefixOf]

/-- Stepping `replaceAllL` over a region with no occurrence start. -/
theorem replaceAllL_skip (pat : List Char) (_hpat : pat ≠ []) :
    ∀ (a rest : List Char),
    (∀ k < a.length, ¬ pat.isPrefixOf ((a ++ rest).drop k)) →
    replaceAllL pat (a ++ rest) = a ++ replaceAllL pat rest := by
  intro a
  induction a with
  | nil => intro rest _; simp
  | cons c a' ih =>
    intro rest h
    have h0 : ¬ pat.isPrefixOf (c :: (a' ++ rest)) := by
      have := h 0 (by simp)
      simpa using this
    rw [show (c :: a') ++ rest = c :: (a' ++ rest) from rfl]
    rw [replaceAllL_cons_neg (fun hc => h0 hc.2)]
    rw [ih rest (fun k hk => by
      have := h (k + 1) (by simpa using Nat.succ_lt_succ hk)
      simpa using this)]
    rfl

/-- `replaceAllL` removes a leading occurrence of the pattern. -/
theorem replaceAllL_head (pat rest : List Char) (hpat : pat ≠ []) :
    replaceAllL pat (pat ++ rest) = replaceAllL pat rest := by
  cases hp : pat with
  | nil => exact absurd hp hpat
  | cons c cs =>
    rw [← hp]
    have hcons : pat ++ rest = c :: (cs ++ rest) := by rw [hp]; rfl
    rw [hcons]
    have hpref : pat.isPrefixOf (c :: (cs ++ rest)) := by
      rw [← hcons]
      exact List.isPrefixOf_iff_prefix.mpr ⟨rest, rfl⟩
    rw [replaceAllL_cons_pos ⟨hpat, hpref⟩]
    rw [← hcons, List.drop_left]

/-- `replaceAllL` is the identity on a list with no occurrence. -/
theorem replaceAllL_id (pat s : List Char) (hpat : pat ≠ [])
    (h : ∀ k ≤ s.length, ¬ pat.isPrefixOf (s.drop k)) :
    replaceAllL pat s = s := by
  have := replaceAllL_skip pat hpat s [] (fun k hk => by
    have := h k (le_of_lt hk)
    simpa using this)
  simpa [replaceAllL, replaceAllAux_nilList] using this

/-- For a filename that is some stem followed by a non-empty extension,
`process_filename` classifies the (possibly stripped) stem. -/
theorem process_filename_eq_classify (X : List Char)
    (filename ext strip_str tag_for tag_rev : String)
    (hdata : filename.data = X ++ ext.data) (hext : ext.data ≠ []) :
    process_filename filename ext strip_str tag_for tag_rev
      = classifyName
          (if strip_str.data.isEmpty then X else replaceAllL strip_str.data X)
          tag_for.data tag_rev.data := by
  unfold process_filename
  rw [hdata]
  have hsuf : ext.data.isSuffixOf (X ++ ext.data) :=
    List.isSuffixOf_iff_suffix.mpr ⟨X, rfl⟩
  rw [if_neg (by simp [hsuf])]
  have hlen0 : ¬ ext.data.length = 0 := by
    intro h
    exact hext (List.length_eq_zero.mp h)
  rw [if_neg hlen0]
  have htake : (X ++ ext.data).take ((X ++ ext.data).length - ext.data.length)
      = X := by
    have : (X ++ ext.data).length - ext.data.length = X.length := by
      simp
    rw [this, List.take_left]
  rw [htake]

/-- C5 (amended): when the extension-stripped name decomposes as
`u ++ strip ++ v ++ strip ++ w` with the two shown occurrences being the
leftmost-scan occurrences of the non-empty strip substring (no
occurrence starts inside `u`, inside `v`, or anywhere in `w`), the code
removes BOTH occurrences — classifying the file exactly as it would
classify the name `u ++ v ++ w` with no stripping requested.  (Python
`str.replace` removes every leftmost non-overlapping occurrence, not
just the first.) -/
theorem claim_C5 (ext strip_str tag_for tag_rev u v w : String)
    (hext : ext.data ≠ [])
    (hstrip : strip_str.data ≠ [])
    (hu : ∀ k < u.data.length, ¬ strip_str.data.isPrefixOf
      ((u.data ++ (strip_str.data ++ (v.data ++ (strip_str.data ++ w.data)))).drop k))
    (hv : ∀ k < v.data.length, ¬ strip_str.data.isPrefixOf
      ((v.data ++ (strip_str.data ++ w.data)).drop k))
    (hw : ∀ k ≤ w.data.length, ¬ strip_str.data.isPrefixOf (w.data.drop k)) :
    process_filename (u ++ strip_str ++ v ++ strip_str ++ w ++ ext)
        ext strip_str tag_for tag_rev
      = process_filename (u ++ v ++ w ++ ext) ext "" tag_for tag_rev := by
  have hdata1 : (u ++ strip_str ++ v ++ strip_str ++ w ++ ext).data
      = (u.data ++ (strip_str.data ++ (v.data ++ (strip_str.data ++ w.data))))
        ++ ext.data := by
    simp
  have hdata2 : (u ++ v ++ w ++ ext).data
      = (u.data ++ (v.data ++ w.data)) ++ ext.data := by
    simp
  rw [process_filename_eq_classify _ _ _ _ _ _ hdata1 hext,
    process_filename_eq_classify _ _ _ _ _ _ hdata2 hext]
  have hne : strip_str.data.isEmpty = false := by
    cases hs : strip_str.data with
    | nil => exact absurd hs hstrip
    | cons c cs => rfl
  have hemp : (("" : String).data.isEmpty) = true := by decide
  rw [hne, hemp]
  simp only [Bool.false_eq_true, if_false, if_true]
  rw [replaceAllL_skip strip_str.data hstrip u.data _ hu,
    replaceAllL_head strip_str.data _ hstrip,
    replaceAllL_skip strip_str.data hstrip v.data _ hv,
    replaceAllL_head strip_str.data _ hstrip,
    replaceAllL_id strip_str.data w.data hstrip hw]

/-- Closed witness for the amended C5. -/
theorem claim_C5_witness :
    process_filename ("A" ++ "xx" ++ "B" ++ "xx" ++ "C_R1" ++ ".fq")
        ".fq" "xx" "_R1" "_R2"
      = process_filename ("A" ++ "B" ++ "C_R1" ++ ".fq") ".fq" "" "_R1" "_R2" :=
  claim_C5 ".fq" "xx" "_R1" "_R2" "A" "B" "C_R1"
    (by decide) (by decide) (by decide) (by decide) (by decide)

theorem aget_none_of_no_key {α : Type} {m : List (String × α)} {k : String}
    (h : ∀ p ∈ m, p.1 ≠ k) : aget m k = none := by
  induction m with
  | nil => rfl
  | cons p rest ih =>
    simp only [aget]
    rw [if_neg (h p (by simp))]
    exact ih (fun q hq => h q (by simp [hq]))

theorem aget_setInPlace {α : Type} (m : List (String × α)) (k : String) (v : α)
    (h : ∃ p ∈ m, p.1 = k) :
    aget (m.map (fun p => if p.1 = k then (k, v) else p)) k = some v := by
  induction m with
  | nil => simp at h
  | cons p rest ih =>
    simp only [List.map_cons]
    by_cases hp : p.1 = k
    · rw [if_pos hp]
      simp [aget]
    · rw [if_neg hp]
      obtain ⟨q, hq, hqk⟩ := h
      rcases List.mem_cons.mp hq with rfl | hq'
      · exact absurd hqk hp
      · simp only [aget, if_neg hp]
        exact ih ⟨q, hq', hqk⟩

theorem aget_map_ne {α : Type} (m : List (String × α)) (k b : String) (v : α)
    (hne : b ≠ k) :
    aget (m.map (fun p => if p.1 = k then (k, v) else p)) b = aget m b := by
  induction m with
  | nil => rfl
  | cons p rest ih =>
    simp only [List.map_cons]
    by_cases hp : p.1 = k
    · rw [if_pos hp]
      have hpb : ¬ p.1 = b := by rw [hp]; exact fun h => hne h.symm
      simp only [aget]
      rw [if_neg (fun h => hne h.symm), if_neg hpb]
      exact ih
    · rw [if_neg hp]
      simp only [aget]
      by_cases hpb : p.1 = b
      · simp only [if_pos hpb]
      · simp only [if_neg hpb]
        exact ih

theorem aget_dictInsert_self {α : Type} (m : List (String × α)) (k : String)
    (v : α) : aget (dictInsert m k v) k = some v := by
  unfold dictInsert
  by_cases h : m.any (fun p => p.1 = k)
  · rw [if_pos h]
    refine aget_setInPlace m k v ?_
    obtain ⟨p, hp, hpk⟩ := List.any_eq_true.mp h
    exact ⟨p, hp, of_decide_eq_true hpk⟩
  · rw [if_neg h]
    have hnone : aget m k = none := by
      refine aget_none_of_no_key (fun p hp hpk => ?_)
      exact h (List.any_eq_true.mpr ⟨p, hp, decide_eq_true hpk⟩)
    rw [aget_append_none _ hnone]
    simp [aget]

theorem aget_dictInsert_ne {α : Type} (m : List (String × α)) {k b : String}
    (v : α) (hne : b ≠ k) : aget (dictInsert m k v) b = aget m b := by
  unfold dictInsert
  by_cases h : m.any (fun p => p.1 = k)
  · rw [if_pos h]
    exact aget_map_ne m k b v hne
  · rw [if_neg h]
    cases haget : aget m b with
    | some w => exact aget_append_left _ haget
    | none =>
      rw [aget_append_none _ haget]
      simp only [aget]
      rw [if_neg (fun hkb => hne hkb.symm)]

/-- The sanitized base name of `rename_sample_id` before duplicate
handling: prepend the `Sample`-word and filler when the raw id starts
with a digit (rule 1), then replace every non-alphanumeric ASCII
character with the filler string (rule 2, `re.sub(r'[^a-zA-Z0-9]',
safe_char, ...)`).  `none` models the `IndexError` Python raises on an
empty id (`new_name[0]`). -/
def sanitizeBase (sample_id safe_char pfx : String) : Option String :=
  match sample_id.data with
  | [] => none
  | c :: _ =>
    let withPfx : List Char :=
      if c.isDigit then pfx.data ++ safe_char.data ++ sample_id.data
      else sample_id.data
    some ⟨(withPfx.map (fun ch =>
      if ch.isAlphanum then [ch] else safe_char.data)).flatten⟩

/-- `rename_sample_id` from `make_mapping.py`: sanitize, then handle
duplicates against the caller-owned `name_counts` dict — a base seen
before gets its count bumped and appended as a numeric suffix; a new
base is recorded with count `0` and returned unsuffixed. -/
def rename_sample_id (sample_id safe_char pfx : String)
    (name_counts : List (String × Nat)) :
    Option (String × List (String × Nat)) :=
  match sanitizeBase sample_id safe_char pfx with
  | none => none
  | some base =>
    match aget name_counts base with
    | some n => some (base ++ toString (n + 1), dictInsert name_counts base (n + 1))
    | none => some (base, dictInsert name_counts base 0)

/-- Processing a list of raw ids through `rename_sample_id` with one
shared `name_counts` accumulator, as the `make_mapping` command does
over its discovered samples. -/
def renameAll (safe_char pfx : String) :
    List String → List (String × Nat) →
    Option (List String × List (String × Nat))
  | [], counts => some ([], counts)
  | sample_id :: rest, counts =>
    match rename_sample_id sample_id safe_char pfx counts with
    | none => none
    | some (out, counts') =>
      match renameAll safe_char pfx rest counts' with
      | none => none
      | some (outs, countsF) => some (out :: outs, countsF)

/-- How many of the raw ids in `ids` sanitize to base `b`. -/
def baseOcc (safe_char pfx b : String) (ids : List String) : Nat :=
  ids.countP (fun sample_id =>
    decide (sanitizeBase sample_id safe_char pfx = some b))

theorem sanitizeBase_isSome {sample_id : String} (safe_char pfx : String)
    (h : sample_id ≠ "") :
    ∃ b, sanitizeBase sample_id safe_char pfx = some b := by
  unfold sanitizeBase
  cases hd : sample_id.data with
  | nil =>
    exfalso
    apply h
    cases sample_id with
    | mk data =>
      simp only at hd
      rw [hd]
  | cons c cs => exact ⟨_, rfl⟩

theorem baseOcc_append (safe_char pfx b : String) (x y : List String) :
    baseOcc safe_char pfx b (x ++ y)
      = baseOcc safe_char pfx b x + baseOcc safe_char pfx b y := by
  simp [baseOcc, List.countP_append]

/-- Invariant-carrying correctness of `renameAll`: starting from a
counts dict that records, for every base, one less than the number of
already-processed ids (`pre`) sanitizing to it (absent when zero), the
run succeeds on non-empty ids and the `i`-th output is the sanitized
base of the `i`-th id, unsuffixed when no earlier id (in `pre` or
before position `i`) produced the same base, and suffixed with the
count of earlier producers otherwise. -/
theorem renameAll_spec (safe_char pfx : String) :
    ∀ (ids pre : List String) (counts : List (String × Nat)),
    (∀ sample_id ∈ ids, sample_id ≠ "") →
    (∀ b, aget counts b =
      match baseOcc safe_char pfx b pre with
      | 0 => none
      | Nat.succ n => some n) →
    ∃ outs countsF,
      renameAll safe_char pfx ids counts = some (outs, countsF) ∧
      outs.length = ids.length ∧
      ∀ i (hi : i < ids.length), ∃ b,
        sanitizeBase (ids.get ⟨i, hi⟩) safe_char pfx = some b ∧
        outs.get? i = some (
          match baseOcc safe_char pfx b (pre ++ ids.take i) with
          | 0 => b
          | Nat.succ n => b ++ toString (n + 1)) := by
  intro ids
  induction ids with
  | nil =>
    intro pre counts _ _
    exact ⟨[], counts, rfl, rfl, fun i hi => absurd hi (by simp)⟩
  | cons sample_id rest ih =>
    intro pre counts hne hinv
    obtain ⟨b₀, hb₀⟩ := sanitizeBase_isSome safe_char pfx
      (hne sample_id (by simp))
    have hocc1 : baseOcc safe_char pfx b₀ [sample_id] = 1 := by
      simp [baseOcc, List.countP_cons, hb₀]
    have hocc0 : ∀ b, b ≠ b₀ → baseOcc safe_char pfx b [sample_id] = 0 := by
      intro b hb
      have hne' : ¬ (sanitizeBase sample_id safe_char pfx = some b) := by
        rw [hb₀]
        exact fun h => hb (Option.some.inj h).symm
      simp [baseOcc, List.countP_cons, hne']
    cases hocc : baseOcc safe_char pfx b₀ pre with
    | zero =>
      have hag : aget counts b₀ = none := by rw [hinv b₀, hocc]
      have hstep : rename_sample_id sample_id safe_char pfx counts
          = some (b₀, dictInsert counts b₀ 0) := by
        simp only [rename_sample_id, hb₀, hag]
      have hinv' : ∀ b, aget (dictInsert counts b₀ 0) b =
          match baseOcc safe_char pfx b (pre ++ [sample_id]) with
          | 0 => none
          | Nat.succ n => some n := by
        intro b
        by_cases hb : b = b₀
        · subst hb
          rw [aget_dictInsert_self, baseOcc_append, hocc, hocc1]
        · rw [aget_dictInsert_ne _ _ hb, hinv b, baseOcc_append,
            hocc0 b hb, Nat.add_zero]
      obtain ⟨outs, countsF, hrun, hlen, hspec⟩ :=
        ih (pre ++ [sample_id]) _ (fun x hx => hne x (by simp [hx])) hinv'
      refine ⟨b₀ :: outs, countsF, ?_, by simp [hlen], ?_⟩
      · simp only [renameAll, hstep, hrun]
      · intro i hi
        cases i with
        | zero =>
          refine ⟨b₀, by simpa using hb₀, ?_⟩
          simp only [List.take_zero, List.append_nil, hocc]
          rfl
        | succ i' =>
          have hi' : i' < rest.length := by simpa using hi
          obtain ⟨b, hb, hout⟩ := hspec i' hi'
          refine ⟨b, by simpa using hb, ?_⟩
          have hpre : pre ++ (sample_id :: rest).take (i' + 1)
              = (pre ++ [sample_id]) ++ rest.take i' := by
            simp [List.take_succ_cons, List.append_assoc]
          rw [show ((b₀ :: outs).get? (i' + 1)) = outs.get? i' from rfl,
            hpre]
          exact hout
    | succ n =>
      have hag : aget counts b₀ = some n := by rw [hinv b₀, hocc]
      have hstep : rename_sample_id sample_id safe_char pfx counts
          = some (b₀ ++ toString (n + 1), dictInsert counts b₀ (n + 1)) := by
        simp only [rename_sample_id, hb₀, hag]
      have hinv' : ∀ b, aget (dictInsert counts b₀ (n + 1)) b =
          match baseOcc safe_char pfx b (pre ++ [sample_id]) with
          | 0 => none
          | Nat.succ n => some n := by
        intro b
        by_cases hb : b = b₀
        · subst hb
          rw [aget_dictInsert_self, baseOcc_append, hocc, hocc1]
        · rw [aget_dictInsert_ne _ _ hb, hinv b, baseOcc_append,
            hocc0 b hb, Nat.add_zero]
      obtain ⟨outs, countsF, hrun, hlen, hspec⟩ :=
        ih (pre ++ [sample_id]) _ (fun x hx => hne x (by simp [hx])) hinv'
      refine ⟨(b₀ ++ toString (n + 1)) :: outs, countsF, ?_, by simp [hlen], ?_⟩
      · simp only [renameAll, hstep, hrun]
      · intro i hi
        cases i with
        | zero =>
          refine ⟨b₀, by simpa using hb₀, ?_⟩
          simp only [List.take_zero, List.append_nil, hocc]
          rfl
        | succ i' =>
          have hi' : i' < rest.length := by simpa using hi
          obtain ⟨b, hb, hout⟩ := hspec i' hi'
          refine ⟨b, by simpa using hb, ?_⟩
          have hpre : pre ++ (sample_id :: rest).take (i' + 1)
              = (pre ++ [sample_id]) ++ rest.take i' := by
            simp [List.take_succ_cons, List.append_assoc]
          rw [show (((b₀ ++ toString (n + 1)) :: outs).get? (i' + 1))
              = outs.get? i' from rfl, hpre]
          exact hout

/-- C6: sanitization with filler `_` maps the raw id `123_sample` to
`Sample_123_sample` on first occurrence (recorded with count 0); and
for every sequence of non-empty raw ids processed with one shared,
initially empty accumulator, the `i`-th output is the sanitized base
when no earlier id produced the same base, and the base suffixed with
`k` when exactly `k` earlier ids produced it (so the second occurrence
gets suffix `1`, the third `2`, and a first occurrence is never
suffixed). -/
theorem claim_C6 :
    rename_sample_id "123_sample" "_" "Sample" []
        = some ("Sample_123_sample", [("Sample_123_sample", 0)]) ∧
    ∀ (safe_char pfx : String) (ids : List String),
      (∀ sample_id ∈ ids, sample_id ≠ "") →
      ∃ outs countsF,
        renameAll safe_char pfx ids [] = some (outs, countsF) ∧
        outs.length = ids.length ∧
        ∀ i (hi : i < ids.length), ∃ b,
          sanitizeBase (ids.get ⟨i, hi⟩) safe_char pfx = some b ∧
          outs.get? i = some (
            match baseOcc safe_char pfx b (ids.take i) with
            | 0 => b
            | Nat.succ n => b ++ toString (n + 1)) := by
  constructor
  · decide
  · intro safe_char pfx ids hne
    have := renameAll_spec safe_char pfx ids [] [] hne (fun b => rfl)
    simpa using this

/-- Closed witness for C6, on the spec's own example pair of raw ids
(`123_sample` and `123-sample` both sanitize to `Sample_123_sample`;
the second receives suffix `1`). -/
theorem claim_C6_witness :
    ∃ outs countsF,
      renameAll "_" "Sample" ["123_sample", "123-sample"] []
          = some (outs, countsF) ∧
      outs.length = (["123_sample", "123-sample"] : List String).length ∧
      ∀ i (hi : i < (["123_sample", "123-sample"] : List String).length), ∃ b,
        sanitizeBase ((["123_sample", "123-sample"] : List String).get ⟨i, hi⟩)
            "_" "Sample" = some b ∧
        outs.get? i = some (
          match baseOcc "_" "Sample" b
              ((["123_sample", "123-sample"] : List String).take i) with
          | 0 => b
          | Nat.succ n => b ++ toString (n + 1)) :=
  claim_C6.2 "_" "Sample" ["123_sample", "123-sample"] (by decide)

/-- C4 counterexample: the sample-ID data cell is NOT stored verbatim —
`load_from_file` strips it (`sample_id = row[0].strip()`), so the row
id ` A ` is stored as `A`. -/
theorem claim_C4_counterexample :
    SampleSheet.load_from_file
        [["ID", "Forward", "Reverse"], [" A ", "fwd", "rev"]]
      = .ok ⟨["ID", "Forward", "Reverse"], [⟨"A", "fwd", some "rev", []⟩]⟩ ∧
      ("A" : String) ≠ " A " := by
  constructor
  · rfl
  · decide

/-- C4 (amended): header names are trimmed of surrounding whitespace
(` Forward `, ` Reverse `, ` X ` are recognized and keyed by their
trimmed names), and the Forward cell, the Reverse cell and every
attribute value are stored verbatim, untrimmed — but the sample-ID cell
is the exception: it is trimmed before storage (and a row whose ID cell
is blank after trimming is skipped). -/
theorem claim_C4 (idc f r a : String) (hid : pyStrip idc ≠ "") :
    SampleSheet.load_from_file
        [["ID", " Forward ", " Reverse ", " X "], [idc, f, r, a]]
      = .ok ⟨["ID", " Forward ", " Reverse ", " X "],
          [⟨pyStrip idc, f, (if pyStrip r = "" then none else some r),
            [("X", a)]⟩]⟩ := by
  show loadFold ["ID", " Forward ", " Reverse ", " X "] "ID"
      [("ID", 0), ("Forward", 1), ("Reverse", 2), ("X", 3)] 1 2
      [[idc, f, r, a]] 2 ⟨["ID", " Forward ", " Reverse ", " X "], []⟩ = _
  simp only [loadFold, loadRow, List.headD_cons, List.getD_cons_zero,
    List.getD_cons_succ]
  rw [if_neg (by simp)]
  rw [if_neg hid]
  rfl

/-- Closed witness for the amended C4. -/
theorem claim_C4_witness :
    SampleSheet.load_from_file
        [["ID", " Forward ", " Reverse ", " X "], [" B ", " fx ", " rx ", " v "]]
      = .ok ⟨["ID", " Forward ", " Reverse ", " X "],
          [⟨pyStrip " B ", " fx ",
            (if pyStrip " rx " = "" then none else some " rx "),
            [("X", " v ")]⟩]⟩ :=
  claim_C4 " B " " fx " " rx " " v " (by decide)

theorem foldl_dictInsert_fresh :
    ∀ (l : List (Nat × String)) (acc : List (String × Nat)),
    (∀ p ∈ l, pyStrip p.2 = p.2) →
    (l.map Prod.snd).Nodup →
    (∀ p ∈ l, ∀ q ∈ acc, q.1 ≠ p.2) →
    l.foldl (fun m p => dictInsert m (pyStrip p.2) p.1) acc
      = acc ++ l.map (fun p => (p.2, p.1)) := by
  intro l
  induction l with
  | nil => intro acc _ _ _; simp
  | cons p l' ih =>
    intro acc htrim hnd hfresh
    have hp : pyStrip p.2 = p.2 := htrim p (by simp)
    rw [List.map_cons] at hnd
    have hsnd : p.2 ∉ l'.map Prod.snd := (List.nodup_cons.mp hnd).1
    have hany : acc.any (fun q => q.1 = p.2) = false := by
      rw [List.any_eq_false]
      intro q hq
      simpa using hfresh p (by simp) q hq
    have hstep : dictInsert acc (pyStrip p.2) p.1 = acc ++ [(p.2, p.1)] := by
      rw [hp]
      unfold dictInsert
      rw [if_neg (by simp [hany])]
    rw [List.foldl_cons, hstep]
    rw [ih (acc ++ [(p.2, p.1)])
      (fun q hq => htrim q (by simp [hq]))
      ((List.nodup_cons.mp hnd).2)
      (by
        intro q hq r hr
        rcases List.mem_append.mp hr with hr' | hr'
        · exact hfresh q (by simp [hq]) r hr'
        · have hrq : r = (p.2, p.1) := by simpa using hr'
          subst hrq
          intro hcontra
          apply hsnd
          have hmem : q.2 ∈ l'.map Prod.snd := List.mem_map_of_mem Prod.snd hq
          have hpq : p.2 = q.2 := hcontra
          rw [hpq]
          exact hmem)]
    simp

theorem colIdx_of_canonical (cols : List String)
    (htrim : ∀ c ∈ cols, pyStrip c = c) (hnodup : cols.Nodup) :
    colIdx cols = cols.enum.map (fun p => (p.2, p.1)) := by
  unfold colIdx
  rw [foldl_dictInsert_fresh cols.enum []
    (fun p hp => htrim p.2 (by
      have : p.2 ∈ cols.enum.map Prod.snd := List.mem_map_of_mem Prod.snd hp
      simpa [List.enum_map_snd] using this))
    (by simpa [List.enum_map_snd] using hnodup)
    (fun p _ q hq => absurd hq (List.not_mem_nil q))]
  simp

theorem aget_enumFrom :
    ∀ (cols : List String) (n : Nat) (c : String), c ∈ cols →
    ∃ j, aget ((cols.enumFrom n).map (fun p => (p.2, p.1))) c = some j ∧
      n ≤ j ∧ cols.get? (j - n) = some c := by
  intro cols
  induction cols with
  | nil => intro n c hc; simp at hc
  | cons c' cr ih =>
    intro n c hc
    by_cases h : c' = c
    · refine ⟨n, ?_, le_refl n, ?_⟩
      · simp only [List.enumFrom, List.map_cons, aget]
        rw [if_pos h]
      · rw [Nat.sub_self]
        simp [h]
    · have hc' : c ∈ cr := by
        rcases List.mem_cons.mp hc with h' | h'
        · exact absurd h'.symm h
        · exact h'
      obtain ⟨j, hj, hnj, hget⟩ := ih (n + 1) c hc'
      refine ⟨j, ?_, by omega, ?_⟩
      · simp only [List.enumFrom, List.map_cons, aget]
        rw [if_neg h]
        exact hj
      · have hj1 : j - n = (j - (n + 1)) + 1 := by omega
        rw [hj1]
        simpa using hget

theorem getD_map_of_get? {l : List String} {n : Nat} {c : String}
    (f : String → String) (h : l.get? n = some c) :
    (l.map f).getD n "" = f c := by
  rw [List.getD_eq_getElem?_getD, List.getElem?_map]
  rw [List.get?_eq_getElem?] at h
  rw [h]
  rfl

theorem assoc_map_self (m : List (String × String))
    (h : (m.map Prod.fst).Nodup) :
    (m.map Prod.fst).map (fun c => (c, (aget m c).getD "")) = m := by
  induction m with
  | nil => rfl
  | cons p rest ih =>
    rw [List.map_cons] at h
    have h1 : p.1 ∉ rest.map Prod.fst := (List.nodup_cons.mp h).1
    have h2 := (List.nodup_cons.mp h).2
    simp only [List.map_cons]
    congr 1
    · simp [aget]
    · rw [List.map_congr_left (g := fun c => (c, (aget rest c).getD ""))]
      · exact ih h2
      · intro c hc
        have hcp : ¬ p.1 = c := by
          intro hcontra
          exact h1 (hcontra ▸ hc)
        simp only [aget, if_neg hcp]

theorem attrs_filterMap (smp : Sample) (keep : String → Bool) :
    ∀ (cs : List String) (n : Nat) (row : List String),
    (∀ k, row.getD (n + k) "" = (cs.map (renderCell smp)).getD k "") →
    (((cs.enumFrom n).map (fun p => (p.2, p.1))).filter
        (fun p => keep p.1)).map (fun p => (p.1, row.getD p.2 ""))
      = (cs.filter keep).map (fun c => (c, renderCell smp c)) := by
  intro cs
  induction cs with
  | nil => intro n row _; rfl
  | cons c cs' ih =>
    intro n row halign
    have hhead : row.getD n "" = renderCell smp c := by
      have := halign 0
      simpa using this
    have htail : ∀ k, row.getD ((n + 1) + k) ""
        = (cs'.map (renderCell smp)).getD k "" := by
      intro k
      have := halign (k + 1)
      rw [show n + (k + 1) = (n + 1) + k by omega] at this
      simpa using this
    simp only [List.enumFrom, List.map_cons, List.filter_cons]
    by_cases hk : keep c
    · simp only [hk, if_true]
      rw [List.map_cons, hhead, ih (n + 1) row htail]
      rfl
    · simp only [hk, Bool.false_eq_true, if_false]
      exact ih (n + 1) row htail

theorem attrs_filterMap_keep (smp : Sample) (c0 : String)
    (cs : List String) (n : Nat) (row : List String)
    (h : ∀ k, row.getD (n + k) "" = (cs.map (renderCell smp)).getD k "") :
    (((cs.enumFrom n).map (fun p => (p.2, p.1))).filter
        (fun p => !(p.1 = "Forward" ∨ p.1 = "Reverse" : Bool) && p.1 ≠ c0)).map
      (fun p => (p.1, row.getD p.2 ""))
      = (cs.filter
          (fun c => !(c = "Forward" ∨ c = "Reverse" : Bool) && c ≠ c0)).map
          (fun c => (c, renderCell smp c)) :=
  attrs_filterMap smp
    (fun c => !(c = "Forward" ∨ c = "Reverse" : Bool) && c ≠ c0) cs n row h

/-- Parsing the saved row of a canonical sample with a canonical header
recovers the sample exactly. -/
theorem loadRow_of_save
    (c0 : String) (cr : List String)
    (jF jR : Nat) (smp : Sample) (lineNo : Nat) (acc : SampleSheet)
    (hnodup : (c0 :: cr).Nodup)
    (hjF : (c0 :: cr).get? jF = some "Forward") (hjF0 : jF ≠ 0)
    (hjR : (c0 :: cr).get? jR = some "Reverse") (hjR0 : jR ≠ 0)
    (hid : pyStrip smp.id = smp.id) (hidne : smp.id ≠ "")
    (hrev : ∀ rv, smp.reverse = some rv → pyStrip rv ≠ "")
    (hattr : smp.attributes.map Prod.fst
        = cr.filter (fun c => !(c = "Forward" ∨ c = "Reverse" : Bool)))
    (hfresh : smp.id ∉ acc.ids) :
    loadRow (c0 :: cr) c0 ((c0 :: cr).enum.map (fun p => (p.2, p.1))) jF jR
        lineNo acc (smp.id :: cr.map (renderCell smp))
      = .ok ⟨acc.columns, acc.samples ++ [smp]⟩ := by
  have hcr : cr.Nodup := (List.nodup_cons.mp hnodup).2
  have hc0cr : c0 ∉ cr := (List.nodup_cons.mp hnodup).1
  obtain ⟨jF', rfl⟩ : ∃ k, jF = k + 1 := ⟨jF - 1, by omega⟩
  obtain ⟨jR', rfl⟩ : ∃ k, jR = k + 1 := ⟨jR - 1, by omega⟩
  have hjF' : cr.get? jF' = some "Forward" := by simpa using hjF
  have hjR' : cr.get? jR' = some "Reverse" := by simpa using hjR
  have hgetF : (smp.id :: cr.map (renderCell smp)).getD (jF' + 1) ""
      = smp.forward := by
    rw [List.getD_cons_succ, getD_map_of_get? (renderCell smp) hjF']
    simp [renderCell]
  have hgetR : (smp.id :: cr.map (renderCell smp)).getD (jR' + 1) ""
      = smp.reverse.getD "" := by
    rw [List.getD_cons_succ, getD_map_of_get? (renderCell smp) hjR']
    simp [renderCell]
  have hrevite : (if pyStrip (smp.reverse.getD "") = "" then none
      else some (smp.reverse.getD "")) = smp.reverse := by
    cases hr : smp.reverse with
    | none => rfl
    | some rv =>
      have hrv := hrev rv hr
      simp [hrv]
  have halign : ∀ k, (smp.id :: cr.map (renderCell smp)).getD (1 + k) ""
      = (cr.map (renderCell smp)).getD k "" := by
    intro k
    rw [show 1 + k = k + 1 by omega, List.getD_cons_succ]
  have hkeys : (smp.attributes.map Prod.fst).Nodup := by
    rw [hattr]
    exact hcr.filter _
  have hattrs_eq :
      ((((c0 :: cr).enum.map (fun p => (p.2, p.1))).filter
          (fun p => !(p.1 = "Forward" ∨ p.1 = "Reverse" : Bool) && p.1 ≠ c0)).map
        (fun p => (p.1, (smp.id :: cr.map (renderCell smp)).getD p.2 "")))
        = smp.attributes := by
    have henum : (c0 :: cr).enum = (0, c0) :: cr.enumFrom 1 := rfl
    rw [henum, List.map_cons, List.filter_cons]
    have hc0cond : (!((c0, 0).1 = "Forward" ∨ (c0, 0).1 = "Reverse" : Bool)
        && ((c0, 0).1 ≠ c0 : Bool)) = false := by
      simp
    rw [hc0cond]
    simp only [Bool.false_eq_true, if_false]
    rw [attrs_filterMap_keep smp c0 cr 1 _ halign]
    have hfiltcongr : cr.filter
        (fun c => !(c = "Forward" ∨ c = "Reverse" : Bool) && c ≠ c0)
        = cr.filter (fun c => !(c = "Forward" ∨ c = "Reverse" : Bool)) := by
      refine List.filter_congr ?_
      intro c hc
      have : c ≠ c0 := fun h => hc0cr (h ▸ hc)
      simp [this]
    rw [hfiltcongr, ← hattr]
    have hmem : ∀ c ∈ smp.attributes.map Prod.fst,
        (c, renderCell smp c) = (c, (aget smp.attributes c).getD "") := by
      intro c hc
      rw [hattr] at hc
      have hcφ := (List.mem_filter.mp hc).2
      have hnFR : ¬ (c = "Forward" ∨ c = "Reverse") := by simpa using hcφ
      unfold renderCell
      rw [if_neg (fun h => hnFR (Or.inl h)), if_neg (fun h => hnFR (Or.inr h))]
      rfl
    rw [List.map_congr_left hmem]
    exact assoc_map_self smp.attributes hkeys
  unfold loadRow
  rw [if_neg (by simp)]
  simp only [List.headD_cons]
  rw [hid, if_neg hidne]
  rw [List.getD_cons_succ, getD_map_of_get? (renderCell smp) hjF']
  rw [List.getD_cons_succ, getD_map_of_get? (renderCell smp) hjR']
  rw [show renderCell smp "Forward" = smp.forward by simp [renderCell]]
  rw [show renderCell smp "Reverse" = smp.reverse.getD "" by simp [renderCell]]
  rw [hrevite]
  rw [hattrs_eq]
  unfold SampleSheet.add_sample
  rw [if_neg (by simpa using hfresh)]

/-- Folding the saved rows of canonical samples back through the
data-row loop appends exactly those samples. -/
theorem loadFold_of_save (c0 : String) (cr : List String) (jF jR : Nat)
    (hnodup : (c0 :: cr).Nodup)
    (hjF : (c0 :: cr).get? jF = some "Forward") (hjF0 : jF ≠ 0)
    (hjR : (c0 :: cr).get? jR = some "Reverse") (hjR0 : jR ≠ 0) :
    ∀ (samples : List Sample) (acc : SampleSheet) (lineNo : Nat),
    (∀ smp ∈ samples, pyStrip smp.id = smp.id ∧ smp.id ≠ "" ∧
      (∀ rv, smp.reverse = some rv → pyStrip rv ≠ "") ∧
      smp.attributes.map Prod.fst
        = cr.filter (fun c => !(c = "Forward" ∨ c = "Reverse" : Bool))) →
    (acc.ids ++ samples.map Sample.id).Nodup →
    loadFold (c0 :: cr) c0 ((c0 :: cr).enum.map (fun p => (p.2, p.1))) jF jR
        (samples.map (fun smp => smp.id :: cr.map (renderCell smp))) lineNo acc
      = .ok ⟨acc.columns, acc.samples ++ samples⟩ := by
  intro samples
  induction samples with
  | nil =>
    intro acc lineNo _ _
    simp only [List.map_nil, loadFold]
    rw [List.append_nil]
  | cons smp rest ih =>
    intro acc lineNo hcond hnd
    have hsmp := hcond smp (by simp)
    have hfresh : smp.id ∉ acc.ids := by
      intro hin
      have := (List.nodup_append.mp hnd).2.2
      exact this hin (by simp)
    simp only [List.map_cons, loadFold]
    rw [loadRow_of_save c0 cr jF jR smp lineNo acc hnodup hjF hjF0 hjR hjR0
      hsmp.1 hsmp.2.1 hsmp.2.2.1 hsmp.2.2.2 hfresh]
    have hnd' : ((SampleSheet.mk acc.columns (acc.samples ++ [smp])).ids
        ++ rest.map Sample.id).Nodup := by
      simp only [SampleSheet.ids, List.map_append, List.map_cons,
        List.map_nil] at hnd ⊢
      simpa [List.append_assoc] using hnd
    have hrec := ih ⟨acc.columns, acc.samples ++ [smp]⟩ (lineNo + 1)
      (fun q hq => hcond q (by simp [hq])) hnd'
    exact hrec.trans (by simp)

/-- C3 (amended): for a valid registry in canonical form — non-empty
distinct whitespace-trimmed column names whose first entry (the ID
label) is non-blank and is not one of the reserved names `Forward` /
`Reverse`, both reserved names present, whitespace-trimmed non-empty
distinct sample ids, present reverse paths non-blank, and each sample's
attribute keys equal to the non-reserved columns in column order —
saving and re-loading reproduces the registry exactly (same columns,
same samples with identical id, forward, reverse and attributes,
paths as stored). -/
theorem claim_C3 (s : SampleSheet)
    (hcols : s.columns ≠ [])
    (htrim : ∀ c ∈ s.columns, pyStrip c = c)
    (hnodupC : s.columns.Nodup)
    (hc0ne : s.columns.headD "" ≠ "")
    (hc0F : s.columns.headD "" ≠ "Forward")
    (hc0R : s.columns.headD "" ≠ "Reverse")
    (hF : "Forward" ∈ s.columns) (hR : "Reverse" ∈ s.columns)
    (hids : ∀ smp ∈ s.samples, pyStrip smp.id = smp.id ∧ smp.id ≠ "")
    (hnodupI : (s.samples.map Sample.id).Nodup)
    (hrev : ∀ smp ∈ s.samples, ∀ rv, smp.reverse = some rv → pyStrip rv ≠ "")
    (hattrs : ∀ smp ∈ s.samples, smp.attributes.map Prod.fst
        = (s.columns.drop 1).filter
            (fun c => !(c = "Forward" ∨ c = "Reverse" : Bool))) :
    SampleSheet.load_from_file s.save_to_file = .ok s := by
  obtain ⟨c0, cr, hc⟩ : ∃ c0 cr, s.columns = c0 :: cr := by
    cases hcs : s.columns with
    | nil => exact absurd hcs hcols
    | cons a l => exact ⟨a, l, rfl⟩
  have hc0 : s.columns.headD "" = c0 := by rw [hc]; rfl
  rw [hc0] at hc0ne hc0F hc0R
  rw [hc] at htrim hnodupC hF hR hattrs
  have hcidx : colIdx (c0 :: cr) = (c0 :: cr).enum.map (fun p => (p.2, p.1)) :=
    colIdx_of_canonical _ htrim hnodupC
  obtain ⟨jF, hjFa, _, hjFg⟩ := aget_enumFrom (c0 :: cr) 0 "Forward" hF
  obtain ⟨jR, hjRa, _, hjRg⟩ := aget_enumFrom (c0 :: cr) 0 "Reverse" hR
  rw [Nat.sub_zero] at hjFg hjRg
  have henum0 : (c0 :: cr).enumFrom 0 = (c0 :: cr).enum := rfl
  rw [henum0] at hjFa hjRa
  have hjF0 : jF ≠ 0 := by
    intro h
    rw [h] at hjFg
    have hcF : c0 = "Forward" := by simpa using hjFg
    exact hc0F hcF
  have hjR0 : jR ≠ 0 := by
    intro h
    rw [h] at hjRg
    have hcR : c0 = "Reverse" := by simpa using hjRg
    exact hc0R hcR
  unfold SampleSheet.save_to_file
  rw [hc]
  simp only [SampleSheet.load_from_file]
  rw [if_neg (by rw [htrim c0 (by simp)]; exact hc0ne)]
  rw [hcidx, hjFa, hjRa]
  have hdrop : (c0 :: cr).drop 1 = cr := rfl
  rw [hdrop]
  have hfold := loadFold_of_save c0 cr jF jR hnodupC hjFg hjF0 hjRg hjR0
    s.samples ⟨c0 :: cr, []⟩ 2
    (fun smp hsmp => ⟨(hids smp hsmp).1, (hids smp hsmp).2,
      hrev smp hsmp, by
        have := hattrs smp hsmp
        rw [hdrop] at this
        exact this⟩)
    (by simpa [SampleSheet.ids] using hnodupI)
  refine hfold.trans ?_
  rw [List.nil_append, ← hc]

/-- C3 counterexample: the registry with the single sample id ` A`
(unique, non-empty, attributes matching the non-reserved columns — a
valid registry in the claim's sense) does not survive a save/load round
trip: `save_to_file` writes the id verbatim but `load_from_file` strips
it, so the reloaded registry holds the different sample id `A`. -/
theorem claim_C3_counterexample :
    SampleSheet.load_from_file
        (SampleSheet.save_to_file
          ⟨["ID", "Forward", "Reverse"], [⟨" A", "f.fq", none, []⟩]⟩)
      = .ok ⟨["ID", "Forward", "Reverse"], [⟨"A", "f.fq", none, []⟩]⟩ ∧
      (⟨"A", "f.fq", none, []⟩ : Sample) ≠ ⟨" A", "f.fq", none, []⟩ := by
  exact ⟨rfl, by decide⟩

/-- Closed witness for the amended C3. -/
theorem claim_C3_witness :
    SampleSheet.load_from_file
        (SampleSheet.save_to_file
          ⟨["#SampleID", "Forward", "Reverse", "Treatment"],
            [⟨"S1", "a_R1.fq", some "a_R2.fq", [("Treatment", "x")]⟩,
             ⟨"S2", "b_R1.fq", none, [("Treatment", "y")]⟩]⟩)
      = .ok ⟨["#SampleID", "Forward", "Reverse", "Treatment"],
          [⟨"S1", "a_R1.fq", some "a_R2.fq", [("Treatment", "x")]⟩,
           ⟨"S2", "b_R1.fq", none, [("Treatment", "y")]⟩]⟩ :=
  claim_C3 _ (by decide) (by decide) (by decide) (by decide) (by decide)
    (by decide) (by decide) (by decide) (by decide) (by decide)
    (by
      intro smp hsmp rv hrv
      rcases List.mem_cons.mp hsmp with rfl | h2
      · have hrv' : "a_R2.fq" = rv := by simpa using hrv
        rw [← hrv']
        decide
      · rcases List.mem_cons.mp h2 with rfl | h3
        · simp at hrv
        · simp at h3)
    (by decide)
